import Mathlib

/-!
# Verification of the Enigma machine simulator (`src/enigma.go`)

Shallow embedding of the Go program `enigma.go`.  Go `int` values are
embedded as follows: rotor `position` and `ringSetting` are embedded as
`Nat` (every value the Go program ever stores in those fields is
non-negative: `0`, `v-1` with `1 ≤ v ≤ 26`, and `(p+1) % 26`), while the
`notch` field and the arguments of the setters are embedded as `Int`, so
that comparisons such as `position == notch - 1` and range checks such as
`pos1 < 1` keep their exact Go meaning.  Where Go computes
`(a - b + 26) % 26` on ints that are non-negative under the program's own
invariants, the embedding writes `(a + 26 - b) % 26` on `Nat`, which
agrees with the Go expression whenever `b ≤ 26` (an invariant proved
below).  Go strings are embedded as `List Char` at the points where the
program indexes them byte-by-byte (all wiring strings are ASCII, so byte
indexing and character indexing agree).  The Go `map[rune]rune` plugboard
is embedded as an association list with insert-at-front semantics, which
matches Go map lookup/overwrite behaviour.  Go functions returning
`error` are embedded as functions returning the error (as an enumerated
error kind mirroring the program's error cases) paired with the resulting
state.
-/

/-- Index of an uppercase letter: Go `int(c - 'A')`. -/
def charIdx (c : Char) : Nat := c.toNat - 65

/-- Letter of an index: Go `rune(pos + 'A')`. -/
def letterOfIdx (n : Nat) : Char := Char.ofNat (n + 65)

/-- Go `unicode.ToUpper`, restricted to ASCII (the only code points the
claims and the program's plugboard range check are concerned with). -/
def toUpperAscii (c : Char) : Char :=
  if 'a' ≤ c ∧ c ≤ 'z' then Char.ofNat (c.toNat - 32) else c

/-- The `Rotor` struct of `enigma.go`. -/
structure Rotor where
  name : String
  wiring : List Char
  position : Nat
  notch : Int
  ringSetting : Nat
deriving DecidableEq, Repr

/-- The `Enigma` struct of `enigma.go`: `rotors [3]Rotor` is embedded as
three named fields (`rotor0` = `rotors[0]`, leftmost/slowest, ...,
`rotor2` = `rotors[2]`, rightmost/fastest). -/
structure Enigma where
  rotor0 : Rotor
  rotor1 : Rotor
  rotor2 : Rotor
  reflector : List Char
  plugboard : List (Char × Char)
deriving DecidableEq, Repr

/-- The error cases of `enigma.go`, one constructor per distinct Go
`error` value produced by the configuration API. -/
inductive EnigmaErr where
  /-- "exactly three rotors must be specified" -/
  | wrongRotorCount
  /-- "invalid reflector type: %s" -/
  | unknownReflector
  /-- "invalid rotor type: %s" -/
  | unknownRotor
  /-- "rotor positions must be between 1 and 26" -/
  | positionsOutOfRange
  /-- "ring settings must be between 1 and 26" -/
  | ringsOutOfRange
  /-- "plugboard connections must be between A and Z" -/
  | invalidLetter
  /-- "letter %c is already connected" -/
  | alreadyConnected (c : Char)
deriving DecidableEq, Repr

def rotorI : String := "EKMFLGDQVZNTOWYHXUSPAIBRCJ"
def rotorII : String := "AJDKSIRUXBLHWTMCQGZNPYFVOE"
def rotorIII : String := "BDFHJLCPRTXVZNYEIWGAKMUSQO"
def rotorIV : String := "ESOVPZJAYQUIRHXLNFTGKDCMWB"
def rotorV : String := "VZBRGITYUPSDNHLXAWMJQOFECK"

/-- The `rotorWirings` map of `enigma.go`. -/
def rotorWirings (n : String) : Option String :=
  if n = "I" then some rotorI
  else if n = "II" then some rotorII
  else if n = "III" then some rotorIII
  else if n = "IV" then some rotorIV
  else if n = "V" then some rotorV
  else none

/-- The `rotorNotches` map of `enigma.go` (I: Q, II: E, III: V, IV: J, V: Z). -/
def rotorNotches (n : String) : Option Int :=
  if n = "I" then some 17
  else if n = "II" then some 5
  else if n = "III" then some 22
  else if n = "IV" then some 10
  else if n = "V" then some 26
  else none

def reflectorA : String := "EJMZALYXVBWFCRQUONTSPIKHGD"
def reflectorB : String := "YRUHQSLDPXNGOKMIEBFZCWVJAT"
def reflectorC : String := "FVPJIAOYEDRZXWGCTKUQSBNMHL"

/-- The `reflectors` map of `enigma.go`. -/
def reflectors (n : String) : Option String :=
  if n = "A" then some reflectorA
  else if n = "B" then some reflectorB
  else if n = "C" then some reflectorC
  else none

/-- One iteration of the rotor-construction loop in `NewEnigma`:
`rotors[i] = Rotor{name, wiring, 0, rotorNotches[name], 0}`.  A Go map
access without the `ok` flag yields the zero value when the key is
absent, hence `getD 0`. -/
def mkRotor (n : String) (w : String) : Rotor :=
  { name := n, wiring := w.toList, position := 0,
    notch := (rotorNotches n).getD 0, ringSetting := 0 }

/-- `NewEnigma` of `enigma.go`: length check first, then the reflector
lookup, then the rotor lookups in order (first missing rotor wins). -/
def NewEnigma (rotorNames : List String) (reflectorName : String) :
    Except EnigmaErr Enigma :=
  match rotorNames with
  | [n0, n1, n2] =>
    match reflectors reflectorName with
    | none => .error .unknownReflector
    | some rw =>
      match rotorWirings n0, rotorWirings n1, rotorWirings n2 with
      | none, _, _ => .error .unknownRotor
      | some _, none, _ => .error .unknownRotor
      | some _, some _, none => .error .unknownRotor
      | some w0, some w1, some w2 =>
        .ok { rotor0 := mkRotor n0 w0, rotor1 := mkRotor n1 w1,
              rotor2 := mkRotor n2 w2, reflector := rw.toList,
              plugboard := [] }
  | _ => .error .wrongRotorCount

/-- `Reset` of `enigma.go`: all three positions to 0. -/
def Reset (e : Enigma) : Enigma :=
  { e with rotor0 := { e.rotor0 with position := 0 },
           rotor1 := { e.rotor1 with position := 0 },
           rotor2 := { e.rotor2 with position := 0 } }

/-- `SetRotorPositions` of `enigma.go`.  Returns the Go error (if any)
together with the machine state after the call. -/
def SetRotorPositions (e : Enigma) (pos1 pos2 pos3 : Int) :
    Option EnigmaErr × Enigma :=
  if pos1 < 1 ∨ pos1 > 26 ∨ pos2 < 1 ∨ pos2 > 26 ∨ pos3 < 1 ∨ pos3 > 26 then
    (some .positionsOutOfRange, e)
  else
    (none, { e with rotor0 := { e.rotor0 with position := (pos1 - 1).toNat },
                    rotor1 := { e.rotor1 with position := (pos2 - 1).toNat },
                    rotor2 := { e.rotor2 with position := (pos3 - 1).toNat } })

/-- `SetRingSettings` of `enigma.go`. -/
def SetRingSettings (e : Enigma) (r1 r2 r3 : Int) :
    Option EnigmaErr × Enigma :=
  if r1 < 1 ∨ r1 > 26 ∨ r2 < 1 ∨ r2 > 26 ∨ r3 < 1 ∨ r3 > 26 then
    (some .ringsOutOfRange, e)
  else
    (none, { e with rotor0 := { e.rotor0 with ringSetting := (r1 - 1).toNat },
                    rotor1 := { e.rotor1 with ringSetting := (r2 - 1).toNat },
                    rotor2 := { e.rotor2 with ringSetting := (r3 - 1).toNat } })

/-- The two Go map inserts `e.plugboard[a] = b; e.plugboard[b] = a`,
as association-list prepends (the later insert is in front, matching
Go's overwrite semantics when `a == b`). -/
def plugInsert (pb : List (Char × Char)) (a b : Char) : List (Char × Char) :=
  (b, a) :: (a, b) :: pb

/-- `AddPlugboardConnection` of `enigma.go`. -/
def AddPlugboardConnection (e : Enigma) (a b : Char) :
    Option EnigmaErr × Enigma :=
  let a := toUpperAscii a
  let b := toUpperAscii b
  if a < 'A' ∨ a > 'Z' ∨ b < 'A' ∨ b > 'Z' then
    (some .invalidLetter, e)
  else if (e.plugboard.lookup a).isSome then
    (some (.alreadyConnected a), e)
  else if (e.plugboard.lookup b).isSome then
    (some (.alreadyConnected b), e)
  else
    (none, { e with plugboard := plugInsert e.plugboard a b })

/-- `rotateRotors` of `enigma.go`.  The comparisons are on Go ints;
`notch` is an `Int` here so `notch - 1` is exact Go arithmetic. -/
def rotateRotors (e : Enigma) : Enigma :=
  let e :=
    if (e.rotor1.position : Int) = e.rotor1.notch - 1 then
      { e with rotor1 := { e.rotor1 with position := (e.rotor1.position + 1) % 26 },
               rotor0 := { e.rotor0 with position := (e.rotor0.position + 1) % 26 } }
    else if (e.rotor2.position : Int) = e.rotor2.notch - 1 then
      { e with rotor1 := { e.rotor1 with position := (e.rotor1.position + 1) % 26 } }
    else e
  { e with rotor2 := { e.rotor2 with position := (e.rotor2.position + 1) % 26 } }

/-- The Go idiom `if val, ok := e.plugboard[c]; ok { c = val }`. -/
def plugApply (pb : List (Char × Char)) (c : Char) : Char :=
  match pb.lookup c with
  | some v => v
  | none => c

/-- One iteration of the forward rotor loop of `encryptChar`
(`for i := 2; i >= 0; i--`): offset shift, wiring lookup, shift back.
Go's `(position - ringSetting + 26) % 26` and `(newPos - offset + 26) % 26`
become `(position + 26 - ringSetting) % 26` and `(newPos + 26 - offset) % 26`
on `Nat` (equal whenever `ringSetting ≤ 26` resp. `offset ≤ 26`). -/
def fwdRotor (r : Rotor) (pos : Nat) : Nat :=
  let offset := (r.position + 26 - r.ringSetting) % 26
  let pos := (pos + offset) % 26
  let newPos := charIdx (r.wiring.getD pos 'A')
  (newPos + 26 - offset) % 26

/-- One iteration of the backward rotor loop of `encryptChar`
(`for i := 0; i < 3; i++`): the inner `for j := 0; j < 26; j++` scan
with `break` is the first `j` with `wiring[j]-'A' == pos`; if no `j`
matches, `pos` is left as the shifted value, exactly as in Go. -/
def bwdRotor (r : Rotor) (pos : Nat) : Nat :=
  let offset := (r.position + 26 - r.ringSetting) % 26
  let pos := (pos + offset) % 26
  let j :=
    match (List.range 26).find? (fun j => charIdx (r.wiring.getD j 'A') == pos) with
    | some j => j
    | none => pos
  (j + 26 - offset) % 26

/-- The substitution part of `encryptChar` (everything after
`rotateRotors`), with the two three-iteration loops unrolled: plugboard,
rotors 2,1,0 forward, reflector, rotors 0,1,2 backward, plugboard. -/
def substitute (e : Enigma) (c : Char) : Char :=
  let c1 := plugApply e.plugboard c
  let p0 := charIdx c1
  let p1 := fwdRotor e.rotor2 p0
  let p2 := fwdRotor e.rotor1 p1
  let p3 := fwdRotor e.rotor0 p2
  let p4 := charIdx (e.reflector.getD p3 'A')
  let p5 := bwdRotor e.rotor0 p4
  let p6 := bwdRotor e.rotor1 p5
  let p7 := bwdRotor e.rotor2 p6
  plugApply e.plugboard (letterOfIdx p7)

/-- `encryptChar` of `enigma.go`: returns the output character and the
machine state after the call (Go mutates the receiver). -/
def encryptChar (e : Enigma) (c : Char) : Char × Enigma :=
  if c < 'A' ∨ 'Z' < c then (c, e)
  else
    let e1 := rotateRotors e
    (substitute e1 c, e1)

/-- The per-line character loop of `processIO`: feed a character
sequence through `encryptChar` one character at a time, threading the
machine state. -/
def encryptString (e : Enigma) : List Char → List Char × Enigma
  | [] => ([], e)
  | c :: cs =>
    let r := encryptChar e c
    let rest := encryptString r.2 cs
    (r.1 :: rest.1, rest.2)

/-! ## Basic character arithmetic -/

theorem charIdx_lt_of_upper {c : Char} (h1 : 'A' ≤ c) (h2 : c ≤ 'Z') :
    charIdx c < 26 := by
  have l1 : ('A' : Char).toNat ≤ c.toNat := Char.le_def.mp h1
  have l2 : c.toNat ≤ ('Z' : Char).toNat := Char.le_def.mp h2
  simp only [show ('A' : Char).toNat = 65 from rfl,
    show ('Z' : Char).toNat = 90 from rfl] at l1 l2
  unfold charIdx
  omega

theorem letterOfIdx_charIdx {c : Char} (h1 : 'A' ≤ c) (h2 : c ≤ 'Z') :
    letterOfIdx (charIdx c) = c := by
  have l1 : ('A' : Char).toNat ≤ c.toNat := Char.le_def.mp h1
  simp only [show ('A' : Char).toNat = 65 from rfl] at l1
  unfold letterOfIdx charIdx
  rw [show c.toNat - 65 + 65 = c.toNat by omega]
  exact Char.ofNat_toNat c

theorem charIdx_letterOfIdx {n : Nat} (h : n < 26) :
    charIdx (letterOfIdx n) = n := by
  have : ∀ i : Fin 26, charIdx (letterOfIdx i.val) = i.val := by decide
  exact this ⟨n, h⟩

theorem letterOfIdx_upper {n : Nat} (h : n < 26) :
    'A' ≤ letterOfIdx n ∧ letterOfIdx n ≤ 'Z' := by
  have : ∀ i : Fin 26, 'A' ≤ letterOfIdx i.val ∧ letterOfIdx i.val ≤ 'Z' := by decide
  exact this ⟨n, h⟩

theorem toUpperAscii_of_upper {c : Char} (h1 : 'A' ≤ c) (h2 : c ≤ 'Z') :
    toUpperAscii c = c := by
  have l2 : c.toNat ≤ ('Z' : Char).toNat := Char.le_def.mp h2
  simp only [show ('Z' : Char).toNat = 90 from rfl] at l2
  unfold toUpperAscii
  rw [if_neg]
  intro hc
  have h3 : ('a' : Char).toNat ≤ c.toNat := Char.le_def.mp hc.1
  simp only [show ('a' : Char).toNat = 97 from rfl] at h3
  omega

/-! ## Wiring permutations -/

/-- What the program requires of a rotor wiring table: 26 entries, all
uppercase letters, no two entries equal, and every letter hit. -/
def GoodWiring (w : List Char) : Prop :=
  w.length = 26 ∧
  (∀ i < 26, 'A' ≤ w.getD i 'A' ∧ w.getD i 'A' ≤ 'Z') ∧
  (∀ i < 26, ∀ j < 26, charIdx (w.getD i 'A') = charIdx (w.getD j 'A') → i = j) ∧
  (∀ q < 26, ∃ j ∈ List.range 26, charIdx (w.getD j 'A') = q)

instance (w : List Char) : Decidable (GoodWiring w) := by
  unfold GoodWiring; infer_instance

/-- What the program requires of a reflector wiring table: 26 uppercase
entries forming a fixed-point-free involution. -/
def GoodReflector (w : List Char) : Prop :=
  w.length = 26 ∧ (∀ c ∈ w, 'A' ≤ c ∧ c ≤ 'Z') ∧
  (∀ p < 26, charIdx (w.getD p 'A') < 26) ∧
  (∀ p < 26, charIdx (w.getD (charIdx (w.getD p 'A')) 'A') = p) ∧
  (∀ p < 26, charIdx (w.getD p 'A') ≠ p)

instance (w : List Char) : Decidable (GoodReflector w) := by
  unfold GoodReflector; infer_instance

theorem goodWiring_rotors :
    GoodWiring rotorI.toList ∧ GoodWiring rotorII.toList ∧
    GoodWiring rotorIII.toList ∧ GoodWiring rotorIV.toList ∧
    GoodWiring rotorV.toList := by decide

theorem goodReflector_reflectors :
    GoodReflector reflectorA.toList ∧ GoodReflector reflectorB.toList ∧
    GoodReflector reflectorC.toList := by decide

/-! ## Forward and backward rotor passes are mutually inverse -/

theorem fwdRotor_lt (r : Rotor) (p : Nat) : fwdRotor r p < 26 := by
  simp only [fwdRotor]
  omega

theorem bwdRotor_lt (r : Rotor) (p : Nat) : bwdRotor r p < 26 := by
  simp only [bwdRotor]
  omega

theorem bwdRotor_fwdRotor (r : Rotor) (hw : GoodWiring r.wiring) {p : Nat}
    (hp : p < 26) : bwdRotor r (fwdRotor r p) = p := by
  obtain ⟨hlen, hrange, hinj, _⟩ := hw
  simp only [fwdRotor, bwdRotor]
  set o := (r.position + 26 - r.ringSetting) % 26 with ho_def
  have ho : o < 26 := Nat.mod_lt _ (by omega)
  set p1 := (p + o) % 26 with hp1_def
  have hp1 : p1 < 26 := Nat.mod_lt _ (by omega)
  have hup := hrange p1 hp1
  have hq : charIdx (r.wiring.getD p1 'A') < 26 := charIdx_lt_of_upper hup.1 hup.2
  set q := charIdx (r.wiring.getD p1 'A') with hq_def
  have harg : ((q + 26 - o) % 26 + o) % 26 = q := by omega
  rw [harg]
  cases hf : (List.range 26).find? (fun j => charIdx (r.wiring.getD j 'A') == q) with
  | none =>
    exfalso
    have hnone := List.find?_eq_none.mp hf p1 (List.mem_range.mpr hp1)
    rw [← hq_def] at hnone
    simp at hnone
  | some j0 =>
    have hpred := List.find?_some hf
    have hj0 : j0 < 26 := List.mem_range.mp (List.mem_of_find?_eq_some hf)
    have heq : charIdx (r.wiring.getD j0 'A') = q := by simpa using hpred
    have hj0p1 : j0 = p1 := hinj j0 hj0 p1 hp1 (heq.trans hq_def)
    show (j0 + 26 - o) % 26 = p
    omega

theorem fwdRotor_bwdRotor (r : Rotor) (hw : GoodWiring r.wiring) {p : Nat}
    (hp : p < 26) : fwdRotor r (bwdRotor r p) = p := by
  obtain ⟨hlen, hrange, _, hsurj⟩ := hw
  simp only [fwdRotor, bwdRotor]
  set o := (r.position + 26 - r.ringSetting) % 26 with ho_def
  have ho : o < 26 := Nat.mod_lt _ (by omega)
  set p1 := (p + o) % 26 with hp1_def
  have hp1 : p1 < 26 := Nat.mod_lt _ (by omega)
  obtain ⟨n, hn, hne⟩ := hsurj p1 hp1
  have hfind : ∃ j1, (List.range 26).find? (fun j => charIdx (r.wiring.getD j 'A') == p1)
      = some j1 := by
    have hsome : ((List.range 26).find?
        (fun j => charIdx (r.wiring.getD j 'A') == p1)).isSome := by
      rw [List.find?_isSome]
      exact ⟨n, hn, beq_iff_eq.mpr hne⟩
    exact Option.isSome_iff_exists.mp hsome
  obtain ⟨j1, hj1⟩ := hfind
  rw [hj1]
  have hpred := List.find?_some hj1
  have hj1lt : j1 < 26 := List.mem_range.mp (List.mem_of_find?_eq_some hj1)
  have heq : charIdx (r.wiring.getD j1 'A') = p1 := by simpa using hpred
  have harg : ((j1 + 26 - o) % 26 + o) % 26 = j1 := by omega
  rw [harg, heq]
  omega

/-! ## Plugboard invariants -/

/-- Invariant of every plugboard the API can build: the mapping is
symmetric and every partner is an uppercase letter. -/
def PlugOk (pb : List (Char × Char)) : Prop :=
  ∀ a b : Char, pb.lookup a = some b →
    ('A' ≤ b ∧ b ≤ 'Z') ∧ pb.lookup b = some a

theorem plugOk_nil : PlugOk [] := by
  intro a b h
  simp [List.lookup] at h

theorem lookup_cons (x k v : Char) (es : List (Char × Char)) :
    List.lookup x ((k, v) :: es) = if x = k then some v else List.lookup x es := by
  by_cases h : x = k
  · simp [List.lookup, h]
  · have hb : (x == k) = false := beq_eq_false_iff_ne.mpr h
    simp [List.lookup, hb, h]

theorem plugApply_plugApply {pb : List (Char × Char)} (h : PlugOk pb) (c : Char) :
    plugApply pb (plugApply pb c) = c := by
  unfold plugApply
  cases hc : pb.lookup c with
  | none => simp [hc]
  | some v =>
    have hv := (h c v hc).2
    simp [hc, hv]

theorem plugApply_upper {pb : List (Char × Char)} (h : PlugOk pb) {c : Char}
    (h1 : 'A' ≤ c) (h2 : c ≤ 'Z') :
    'A' ≤ plugApply pb c ∧ plugApply pb c ≤ 'Z' := by
  unfold plugApply
  cases hc : pb.lookup c with
  | none => exact ⟨h1, h2⟩
  | some v => exact (h c v hc).1

theorem plugOk_insert {pb : List (Char × Char)} (h : PlugOk pb) {a b : Char}
    (ha1 : 'A' ≤ a) (ha2 : a ≤ 'Z') (hb1 : 'A' ≤ b) (hb2 : b ≤ 'Z')
    (hna : pb.lookup a = none) (hnb : pb.lookup b = none) :
    PlugOk (plugInsert pb a b) := by
  intro c d hcd
  unfold plugInsert at hcd ⊢
  rw [lookup_cons, lookup_cons] at hcd
  by_cases hcb : c = b
  · rw [if_pos hcb] at hcd
    have hd : d = a := by injection hcd with hcd; exact hcd.symm
    rw [hd]
    refine ⟨⟨ha1, ha2⟩, ?_⟩
    rw [lookup_cons, lookup_cons]
    by_cases hab : a = b
    · rw [if_pos hab]; rw [hcb, ← hab]
    · rw [if_neg hab, if_pos rfl, hcb]
  · rw [if_neg hcb] at hcd
    by_cases hca : c = a
    · rw [if_pos hca] at hcd
      have hd : d = b := by injection hcd with hcd; exact hcd.symm
      rw [hd]
      refine ⟨⟨hb1, hb2⟩, ?_⟩
      rw [lookup_cons, if_pos rfl, hca]
    · rw [if_neg hca] at hcd
      obtain ⟨hdrange, hdsym⟩ := h c d hcd
      have hda : d ≠ a := by
        intro hx
        rw [hx] at hdsym
        rw [hna] at hdsym
        exact Option.noConfusion hdsym
      have hdb : d ≠ b := by
        intro hx
        rw [hx] at hdsym
        rw [hnb] at hdsym
        exact Option.noConfusion hdsym
      refine ⟨hdrange, ?_⟩
      rw [lookup_cons, if_neg hdb, lookup_cons, if_neg hda]
      exact hdsym

/-! ## The machine invariant and reachable states -/

/-- Invariant of a rotor slot: well-formed wiring, position and ring
setting in `[0, 26)`. -/
def GoodRotor (r : Rotor) : Prop :=
  GoodWiring r.wiring ∧ r.position < 26 ∧ r.ringSetting < 26

/-- Invariant of a machine state. -/
def Valid (e : Enigma) : Prop :=
  GoodRotor e.rotor0 ∧ GoodRotor e.rotor1 ∧ GoodRotor e.rotor2 ∧
  GoodReflector e.reflector ∧ PlugOk e.plugboard

/-- The machine states reachable through the API of `enigma.go`:
construction followed by any sequence of configuration calls and
encryptions (both the successful and the failing call outcomes). -/
inductive Reachable : Enigma → Prop where
  | new (rotorNames : List String) (reflectorName : String) (e : Enigma)
      (h : NewEnigma rotorNames reflectorName = .ok e) : Reachable e
  | reset {e : Enigma} (h : Reachable e) : Reachable (Reset e)
  | setPositions {e : Enigma} (h : Reachable e) (p1 p2 p3 : Int) :
      Reachable (SetRotorPositions e p1 p2 p3).2
  | setRings {e : Enigma} (h : Reachable e) (r1 r2 r3 : Int) :
      Reachable (SetRingSettings e r1 r2 r3).2
  | addPlug {e : Enigma} (h : Reachable e) (a b : Char) :
      Reachable (AddPlugboardConnection e a b).2
  | rotate {e : Enigma} (h : Reachable e) : Reachable (rotateRotors e)
  | encrypt {e : Enigma} (h : Reachable e) (c : Char) :
      Reachable (encryptChar e c).2

theorem goodWiring_of_rotorWirings {n : String} {w : String}
    (h : rotorWirings n = some w) : GoodWiring w.toList := by
  unfold rotorWirings at h
  split_ifs at h <;>
    first
    | exact Option.noConfusion h
    | (injection h with h
       rw [← h]
       first
       | exact goodWiring_rotors.1
       | exact goodWiring_rotors.2.1
       | exact goodWiring_rotors.2.2.1
       | exact goodWiring_rotors.2.2.2.1
       | exact goodWiring_rotors.2.2.2.2)

theorem goodReflector_of_reflectors {n : String} {w : String}
    (h : reflectors n = some w) : GoodReflector w.toList := by
  unfold reflectors at h
  split_ifs at h <;>
    first
    | exact Option.noConfusion h
    | (injection h with h
       rw [← h]
       first
       | exact goodReflector_reflectors.1
       | exact goodReflector_reflectors.2.1
       | exact goodReflector_reflectors.2.2)

theorem valid_NewEnigma {names : List String} {rname : String} {e : Enigma}
    (h : NewEnigma names rname = .ok e) : Valid e := by
  unfold NewEnigma at h
  split at h
  · rename_i n0 n1 n2
    cases hrefl : reflectors rname with
    | none => rw [hrefl] at h; exact Except.noConfusion h
    | some rw0 =>
      rw [hrefl] at h
      cases h0 : rotorWirings n0 with
      | none => rw [h0] at h; exact Except.noConfusion h
      | some w0 =>
        rw [h0] at h
        cases h1 : rotorWirings n1 with
        | none => rw [h1] at h; exact Except.noConfusion h
        | some w1 =>
          rw [h1] at h
          cases h2 : rotorWirings n2 with
          | none => rw [h2] at h; exact Except.noConfusion h
          | some w2 =>
            rw [h2] at h
            injection h with h
            rw [← h]
            have hz : (0 : Nat) < 26 := by decide
            exact ⟨⟨goodWiring_of_rotorWirings h0, hz, hz⟩,
                   ⟨goodWiring_of_rotorWirings h1, hz, hz⟩,
                   ⟨goodWiring_of_rotorWirings h2, hz, hz⟩,
                   goodReflector_of_reflectors hrefl, plugOk_nil⟩
  · exact Except.noConfusion h

theorem valid_Reset {e : Enigma} (h : Valid e) : Valid (Reset e) := by
  obtain ⟨⟨hw0, hp0, hr0⟩, ⟨hw1, hp1, hr1⟩, ⟨hw2, hp2, hr2⟩, hrefl, hpb⟩ := h
  have hz : (0 : Nat) < 26 := by decide
  exact ⟨⟨hw0, hz, hr0⟩, ⟨hw1, hz, hr1⟩, ⟨hw2, hz, hr2⟩, hrefl, hpb⟩

theorem valid_rotateRotors {e : Enigma} (h : Valid e) : Valid (rotateRotors e) := by
  obtain ⟨⟨hw0, hp0, hr0⟩, ⟨hw1, hp1, hr1⟩, ⟨hw2, hp2, hr2⟩, hrefl, hpb⟩ := h
  simp only [rotateRotors]
  split_ifs with h1 h2
  · exact ⟨⟨hw0, Nat.mod_lt _ (by omega), hr0⟩, ⟨hw1, Nat.mod_lt _ (by omega), hr1⟩,
           ⟨hw2, Nat.mod_lt _ (by omega), hr2⟩, hrefl, hpb⟩
  · exact ⟨⟨hw0, hp0, hr0⟩, ⟨hw1, Nat.mod_lt _ (by omega), hr1⟩,
           ⟨hw2, Nat.mod_lt _ (by omega), hr2⟩, hrefl, hpb⟩
  · exact ⟨⟨hw0, hp0, hr0⟩, ⟨hw1, hp1, hr1⟩,
           ⟨hw2, Nat.mod_lt _ (by omega), hr2⟩, hrefl, hpb⟩

theorem valid_SetRotorPositions {e : Enigma} (h : Valid e) (p1 p2 p3 : Int) :
    Valid (SetRotorPositions e p1 p2 p3).2 := by
  obtain ⟨⟨hw0, hp0, hr0⟩, ⟨hw1, hp1, hr1⟩, ⟨hw2, hp2, hr2⟩, hrefl, hpb⟩ := h
  unfold SetRotorPositions
  split_ifs with hc
  · exact ⟨⟨hw0, hp0, hr0⟩, ⟨hw1, hp1, hr1⟩, ⟨hw2, hp2, hr2⟩, hrefl, hpb⟩
  · push_neg at hc
    refine ⟨⟨hw0, ?_, hr0⟩, ⟨hw1, ?_, hr1⟩, ⟨hw2, ?_, hr2⟩, hrefl, hpb⟩
    · show (p1 - 1).toNat < 26
      omega
    · show (p2 - 1).toNat < 26
      omega
    · show (p3 - 1).toNat < 26
      omega

theorem valid_SetRingSettings {e : Enigma} (h : Valid e) (r1 r2 r3 : Int) :
    Valid (SetRingSettings e r1 r2 r3).2 := by
  obtain ⟨⟨hw0, hp0, hr0⟩, ⟨hw1, hp1, hr1⟩, ⟨hw2, hp2, hr2⟩, hrefl, hpb⟩ := h
  unfold SetRingSettings
  split_ifs with hc
  · exact ⟨⟨hw0, hp0, hr0⟩, ⟨hw1, hp1, hr1⟩, ⟨hw2, hp2, hr2⟩, hrefl, hpb⟩
  · push_neg at hc
    refine ⟨⟨hw0, hp0, ?_⟩, ⟨hw1, hp1, ?_⟩, ⟨hw2, hp2, ?_⟩, hrefl, hpb⟩
    · show (r1 - 1).toNat < 26
      omega
    · show (r2 - 1).toNat < 26
      omega
    · show (r3 - 1).toNat < 26
      omega

theorem valid_AddPlugboardConnection {e : Enigma} (h : Valid e) (a b : Char) :
    Valid (AddPlugboardConnection e a b).2 := by
  obtain ⟨hg0, hg1, hg2, hrefl, hpb⟩ := h
  simp only [AddPlugboardConnection]
  split_ifs with hrange hsa hsb
  · exact ⟨hg0, hg1, hg2, hrefl, hpb⟩
  · exact ⟨hg0, hg1, hg2, hrefl, hpb⟩
  · exact ⟨hg0, hg1, hg2, hrefl, hpb⟩
  · push_neg at hrange
    obtain ⟨ha1, ha2, hb1, hb2⟩ := hrange
    refine ⟨hg0, hg1, hg2, hrefl, ?_⟩
    exact plugOk_insert hpb (le_of_not_lt (by simpa using ha1)) ha2
      (le_of_not_lt (by simpa using hb1)) hb2
      (Option.not_isSome_iff_eq_none.mp hsa)
      (Option.not_isSome_iff_eq_none.mp hsb)

theorem valid_encryptChar {e : Enigma} (h : Valid e) (c : Char) :
    Valid (encryptChar e c).2 := by
  unfold encryptChar
  split_ifs with hc
  · exact h
  · exact valid_rotateRotors h

theorem reachable_valid {e : Enigma} (h : Reachable e) : Valid e := by
  induction h with
  | new names rname e h => exact valid_NewEnigma h
  | reset h ih => exact valid_Reset ih
  | setPositions h p1 p2 p3 ih => exact valid_SetRotorPositions ih p1 p2 p3
  | setRings h r1 r2 r3 ih => exact valid_SetRingSettings ih r1 r2 r3
  | addPlug h a b ih => exact valid_AddPlugboardConnection ih a b
  | rotate h ih => exact valid_rotateRotors ih
  | encrypt h c ih => exact valid_encryptChar ih c

/-! ## The substitution pass: range, involution, no fixed point -/

theorem substitute_upper {e : Enigma} (h : Valid e) {c : Char}
    (h1 : 'A' ≤ c) (h2 : c ≤ 'Z') :
    'A' ≤ substitute e c ∧ substitute e c ≤ 'Z' := by
  obtain ⟨_, _, _, _, hpb⟩ := h
  simp only [substitute]
  apply plugApply_upper hpb (letterOfIdx_upper (bwdRotor_lt e.rotor2 _)).1
    (letterOfIdx_upper (bwdRotor_lt e.rotor2 _)).2

theorem substitute_substitute {e : Enigma} (h : Valid e) {c : Char}
    (h1 : 'A' ≤ c) (h2 : c ≤ 'Z') :
    substitute e (substitute e c) = c := by
  obtain ⟨⟨hw0, _, _⟩, ⟨hw1, _, _⟩, ⟨hw2, _, _⟩, hrefl, hpb⟩ := h
  obtain ⟨hrlen, hrrange, hrlt, hrinv, hrne⟩ := hrefl
  simp only [substitute]
  set c1 := plugApply e.plugboard c with hc1
  have hc1u : 'A' ≤ c1 ∧ c1 ≤ 'Z' := plugApply_upper hpb h1 h2
  set p0 := charIdx c1 with hp0d
  have hp0 : p0 < 26 := charIdx_lt_of_upper hc1u.1 hc1u.2
  set q1 := fwdRotor e.rotor2 p0 with hq1
  have hq1lt : q1 < 26 := fwdRotor_lt e.rotor2 p0
  set q2 := fwdRotor e.rotor1 q1 with hq2
  have hq2lt : q2 < 26 := fwdRotor_lt e.rotor1 q1
  set q3 := fwdRotor e.rotor0 q2 with hq3
  have hq3lt : q3 < 26 := fwdRotor_lt e.rotor0 q2
  set q4 := charIdx (e.reflector.getD q3 'A') with hq4
  have hq4lt : q4 < 26 := hrlt q3 hq3lt
  set q5 := bwdRotor e.rotor0 q4 with hq5
  have hq5lt : q5 < 26 := bwdRotor_lt e.rotor0 q4
  set q6 := bwdRotor e.rotor1 q5 with hq6
  have hq6lt : q6 < 26 := bwdRotor_lt e.rotor1 q5
  set q7 := bwdRotor e.rotor2 q6 with hq7
  have hq7lt : q7 < 26 := bwdRotor_lt e.rotor2 q6
  rw [plugApply_plugApply hpb (letterOfIdx q7)]
  rw [charIdx_letterOfIdx hq7lt]
  rw [hq7, fwdRotor_bwdRotor e.rotor2 hw2 hq6lt]
  rw [hq6, fwdRotor_bwdRotor e.rotor1 hw1 hq5lt]
  rw [hq5, fwdRotor_bwdRotor e.rotor0 hw0 hq4lt]
  rw [hq4, hrinv q3 hq3lt]
  rw [hq3, bwdRotor_fwdRotor e.rotor0 hw0 hq2lt]
  rw [hq2, bwdRotor_fwdRotor e.rotor1 hw1 hq1lt]
  rw [hq1, bwdRotor_fwdRotor e.rotor2 hw2 hp0]
  rw [hp0d, letterOfIdx_charIdx hc1u.1 hc1u.2]
  rw [hc1, plugApply_plugApply hpb c]

theorem substitute_ne {e : Enigma} (h : Valid e) {c : Char}
    (h1 : 'A' ≤ c) (h2 : c ≤ 'Z') :
    substitute e c ≠ c := by
  obtain ⟨⟨hw0, _, _⟩, ⟨hw1, _, _⟩, ⟨hw2, _, _⟩, hrefl, hpb⟩ := h
  obtain ⟨hrlen, hrrange, hrlt, hrinv, hrne⟩ := hrefl
  simp only [substitute]
  intro heq
  set c1 := plugApply e.plugboard c with hc1
  have hc1u : 'A' ≤ c1 ∧ c1 ≤ 'Z' := plugApply_upper hpb h1 h2
  set p0 := charIdx c1 with hp0d
  have hp0 : p0 < 26 := charIdx_lt_of_upper hc1u.1 hc1u.2
  set q1 := fwdRotor e.rotor2 p0 with hq1
  set q2 := fwdRotor e.rotor1 q1 with hq2
  set q3 := fwdRotor e.rotor0 q2 with hq3
  have hq3lt : q3 < 26 := fwdRotor_lt e.rotor0 q2
  set q4 := charIdx (e.reflector.getD q3 'A') with hq4
  have hq4lt : q4 < 26 := hrlt q3 hq3lt
  set q5 := bwdRotor e.rotor0 q4 with hq5
  have hq5lt : q5 < 26 := bwdRotor_lt e.rotor0 q4
  set q6 := bwdRotor e.rotor1 q5 with hq6
  have hq6lt : q6 < 26 := bwdRotor_lt e.rotor1 q5
  set q7 := bwdRotor e.rotor2 q6 with hq7
  have hq7lt : q7 < 26 := bwdRotor_lt e.rotor2 q6
  have e1 : plugApply e.plugboard (plugApply e.plugboard (letterOfIdx q7))
      = plugApply e.plugboard c := congrArg (plugApply e.plugboard) heq
  rw [plugApply_plugApply hpb, ← hc1] at e1
  have e2 : q7 = p0 := by
    have h3 := congrArg charIdx e1
    rwa [charIdx_letterOfIdx hq7lt, ← hp0d] at h3
  have e3 : q6 = q1 := by
    have h3 := congrArg (fwdRotor e.rotor2) e2
    rwa [hq7, fwdRotor_bwdRotor e.rotor2 hw2 hq6lt, ← hq1] at h3
  have e4 : q5 = q2 := by
    have h3 := congrArg (fwdRotor e.rotor1) e3
    rwa [hq6, fwdRotor_bwdRotor e.rotor1 hw1 hq5lt, ← hq2] at h3
  have e5 : q4 = q3 := by
    have h3 := congrArg (fwdRotor e.rotor0) e4
    rwa [hq5, fwdRotor_bwdRotor e.rotor0 hw0 hq4lt, ← hq3] at h3
  rw [hq4] at e5
  exact hrne q3 hq3lt e5

/-! ## Encryption of characters and sequences -/

theorem encryptChar_eq_of_upper {e : Enigma} {c : Char}
    (h1 : 'A' ≤ c) (h2 : c ≤ 'Z') :
    encryptChar e c = (substitute (rotateRotors e) c, rotateRotors e) := by
  have hcond : ¬(c < 'A' ∨ 'Z' < c) := by push_neg; exact ⟨h1, h2⟩
  simp only [encryptChar, if_neg hcond]

theorem encryptString_reciprocal_of_valid {cs : List Char} :
    ∀ {e : Enigma}, Valid e → (∀ c ∈ cs, 'A' ≤ c ∧ c ≤ 'Z') →
    (encryptString e (encryptString e cs).1).1 = cs := by
  induction cs with
  | nil =>
    intro e h hcs
    simp [encryptString]
  | cons c cs ih =>
    intro e h hcs
    have hc := hcs c (List.mem_cons_self c cs)
    have hrest : ∀ x ∈ cs, 'A' ≤ x ∧ x ≤ 'Z' :=
      fun x hx => hcs x (List.mem_cons_of_mem c hx)
    have hrot : Valid (rotateRotors e) := valid_rotateRotors h
    have hsub := substitute_upper hrot hc.1 hc.2
    simp only [encryptString, encryptChar_eq_of_upper hc.1 hc.2,
      encryptChar_eq_of_upper hsub.1 hsub.2]
    rw [substitute_substitute hrot hc.1 hc.2]
    rw [ih hrot hrest]

/-! ## A concrete machine for the examples -/

/-- The machine built from rotors I, II, III and reflector B (the
program's own default configuration). -/
def sampleEnigma : Enigma :=
  match NewEnigma ["I", "II", "III"] "B" with
  | .ok e => e
  | .error _ =>
    { rotor0 := mkRotor "I" rotorI, rotor1 := mkRotor "II" rotorII,
      rotor2 := mkRotor "III" rotorIII, reflector := reflectorB.toList,
      plugboard := [] }

theorem sampleEnigma_new : NewEnigma ["I", "II", "III"] "B" = .ok sampleEnigma := by
  rfl

theorem sampleEnigma_reachable : Reachable sampleEnigma :=
  Reachable.new ["I", "II", "III"] "B" sampleEnigma sampleEnigma_new

theorem lookup_plugInsert_left (pb : List (Char × Char)) (a b : Char) :
    List.lookup a (plugInsert pb a b) = some b := by
  unfold plugInsert
  rw [lookup_cons, lookup_cons]
  by_cases hab : a = b
  · rw [if_pos hab, hab]
  · rw [if_neg hab, if_pos rfl]

theorem lookup_plugInsert_right (pb : List (Char × Char)) (a b : Char) :
    List.lookup b (plugInsert pb a b) = some a := by
  unfold plugInsert
  rw [lookup_cons, if_pos rfl]

/-! ## The claims -/

/-- C7: each of the three built-in reflector wiring tables (A, B and C)
is an involution: applying the reflector permutation twice to any letter
index `x < 26` returns `x`. -/
theorem reflectors_involutive :
    ∀ x : Fin 26,
      charIdx (reflectorA.toList.getD (charIdx (reflectorA.toList.getD x.val 'A')) 'A') = x.val ∧
      charIdx (reflectorB.toList.getD (charIdx (reflectorB.toList.getD x.val 'A')) 'A') = x.val ∧
      charIdx (reflectorC.toList.getD (charIdx (reflectorC.toList.getD x.val 'A')) 'A') = x.val := by
  decide

/-- C8: for any character outside uppercase A-Z, `encryptChar` returns
the character unchanged and leaves the whole machine state (in
particular every rotor position) unmodified. -/
theorem encryptChar_passthrough (e : Enigma) (c : Char)
    (h : c < 'A' ∨ 'Z' < c) : encryptChar e c = (c, e) := by
  simp only [encryptChar, if_pos h]

theorem encryptChar_passthrough_witness :
    encryptChar sampleEnigma '5' = ('5', sampleEnigma) :=
  encryptChar_passthrough sampleEnigma '5' (by decide)

/-- C9: in every reachable machine state (after construction and after
any sequence of reset, position/ring setters, rotation steps and
encryptions), every rotor's position and ring setting lies in `[0, 26)`
(the `Nat` embedding of these fields is justified because the program
only ever stores the non-negative values `0`, `v-1` with `1 ≤ v ≤ 26`,
and `(p+1) % 26` in them, so they are also never negative). -/
theorem reachable_positions_bounded (e : Enigma) (h : Reachable e) :
    e.rotor0.position < 26 ∧ e.rotor1.position < 26 ∧ e.rotor2.position < 26 ∧
    e.rotor0.ringSetting < 26 ∧ e.rotor1.ringSetting < 26 ∧
    e.rotor2.ringSetting < 26 := by
  obtain ⟨⟨_, hp0, hr0⟩, ⟨_, hp1, hr1⟩, ⟨_, hp2, hr2⟩, _, _⟩ := reachable_valid h
  exact ⟨hp0, hp1, hp2, hr0, hr1, hr2⟩

theorem reachable_positions_bounded_witness :
    sampleEnigma.rotor0.position < 26 ∧ sampleEnigma.rotor1.position < 26 ∧
    sampleEnigma.rotor2.position < 26 ∧ sampleEnigma.rotor0.ringSetting < 26 ∧
    sampleEnigma.rotor1.ringSetting < 26 ∧ sampleEnigma.rotor2.ringSetting < 26 :=
  reachable_positions_bounded sampleEnigma sampleEnigma_reachable

/-- C10: every built-in rotor wiring string (I through V) and every
built-in reflector wiring string (A, B, C) is a 26-character table in
which each of the 26 letters A-Z appears exactly once (a bijection over
the alphabet). -/
theorem wirings_bijective :
    rotorI.toList.length = 26 ∧ rotorII.toList.length = 26 ∧
    rotorIII.toList.length = 26 ∧ rotorIV.toList.length = 26 ∧
    rotorV.toList.length = 26 ∧ reflectorA.toList.length = 26 ∧
    reflectorB.toList.length = 26 ∧ reflectorC.toList.length = 26 ∧
    ∀ i : Fin 26,
      rotorI.toList.count (letterOfIdx i.val) = 1 ∧
      rotorII.toList.count (letterOfIdx i.val) = 1 ∧
      rotorIII.toList.count (letterOfIdx i.val) = 1 ∧
      rotorIV.toList.count (letterOfIdx i.val) = 1 ∧
      rotorV.toList.count (letterOfIdx i.val) = 1 ∧
      reflectorA.toList.count (letterOfIdx i.val) = 1 ∧
      reflectorB.toList.count (letterOfIdx i.val) = 1 ∧
      reflectorC.toList.count (letterOfIdx i.val) = 1 := by
  decide

/-- C1: for every reachable machine configuration and state (rotor
choice, reflector, ring settings, plugboard, and any fixed starting
rotor positions), encrypting a sequence of A-Z letters character by
character with `encryptChar` and then, starting again from the same
state, encrypting the resulting output sequence the same way reproduces
the original input sequence exactly, letter by letter. -/
theorem enigma_reciprocity (e : Enigma) (h : Reachable e) (cs : List Char)
    (hcs : ∀ c ∈ cs, 'A' ≤ c ∧ c ≤ 'Z') :
    (encryptString e (encryptString e cs).1).1 = cs :=
  encryptString_reciprocal_of_valid (reachable_valid h) hcs

theorem enigma_reciprocity_witness :
    (encryptString sampleEnigma
      (encryptString sampleEnigma ['H', 'E', 'L', 'L', 'O']).1).1
      = ['H', 'E', 'L', 'L', 'O'] :=
  enigma_reciprocity sampleEnigma sampleEnigma_reachable
    ['H', 'E', 'L', 'L', 'O'] (by decide)

/-- C2: one rotation step behaves exactly as claimed: if the middle
rotor's position equals its notch value minus 1, the middle and left
rotors each advance by 1 mod 26; otherwise, if the right rotor's
position equals its notch value minus 1, the middle rotor advances by 1
mod 26; in every case the right rotor advances by 1 mod 26; and no other
rotor position (and no ring setting) changes. -/
theorem rotateRotors_spec (e : Enigma) :
    (rotateRotors e).rotor2.position = (e.rotor2.position + 1) % 26 ∧
    (((e.rotor1.position : Int) = e.rotor1.notch - 1) →
      (rotateRotors e).rotor1.position = (e.rotor1.position + 1) % 26 ∧
      (rotateRotors e).rotor0.position = (e.rotor0.position + 1) % 26) ∧
    (((e.rotor1.position : Int) ≠ e.rotor1.notch - 1) →
      ((e.rotor2.position : Int) = e.rotor2.notch - 1) →
      (rotateRotors e).rotor1.position = (e.rotor1.position + 1) % 26 ∧
      (rotateRotors e).rotor0.position = e.rotor0.position) ∧
    (((e.rotor1.position : Int) ≠ e.rotor1.notch - 1) →
      ((e.rotor2.position : Int) ≠ e.rotor2.notch - 1) →
      (rotateRotors e).rotor1.position = e.rotor1.position ∧
      (rotateRotors e).rotor0.position = e.rotor0.position) ∧
    (rotateRotors e).rotor0.ringSetting = e.rotor0.ringSetting ∧
    (rotateRotors e).rotor1.ringSetting = e.rotor1.ringSetting ∧
    (rotateRotors e).rotor2.ringSetting = e.rotor2.ringSetting := by
  simp only [rotateRotors]
  split_ifs with ha hb
  · exact ⟨rfl, fun _ => ⟨rfl, rfl⟩, fun hn _ => absurd ha hn,
           fun hn _ => absurd ha hn, rfl, rfl, rfl⟩
  · exact ⟨rfl, fun hm => absurd hm ha, fun _ _ => ⟨rfl, rfl⟩,
           fun _ hn => absurd hb hn, rfl, rfl, rfl⟩
  · exact ⟨rfl, fun hm => absurd hm ha, fun _ hb2 => absurd hb2 hb,
           fun _ _ => ⟨rfl, rfl⟩, rfl, rfl, rfl⟩

theorem rotateRotors_spec_witness :
    (rotateRotors sampleEnigma).rotor2.position
      = (sampleEnigma.rotor2.position + 1) % 26 ∧
    (rotateRotors sampleEnigma).rotor1.position = sampleEnigma.rotor1.position ∧
    (rotateRotors sampleEnigma).rotor0.position = sampleEnigma.rotor0.position := by
  have h := rotateRotors_spec sampleEnigma
  exact ⟨h.1, (h.2.2.2.1 (by decide) (by decide)).1,
         (h.2.2.2.1 (by decide) (by decide)).2⟩

/-- C4: in every reachable machine state, encrypting an uppercase letter
returns a character that is itself in A-Z and is different from the
input (no letter ever encrypts to itself). -/
theorem encryptChar_no_fixed_point (e : Enigma) (h : Reachable e) (c : Char)
    (h1 : 'A' ≤ c) (h2 : c ≤ 'Z') :
    ('A' ≤ (encryptChar e c).1 ∧ (encryptChar e c).1 ≤ 'Z') ∧
    (encryptChar e c).1 ≠ c := by
  have hv := reachable_valid h
  have hrot := valid_rotateRotors hv
  rw [encryptChar_eq_of_upper h1 h2]
  exact ⟨substitute_upper hrot h1 h2, substitute_ne hrot h1 h2⟩

theorem encryptChar_no_fixed_point_witness :
    ('A' ≤ (encryptChar sampleEnigma 'A').1 ∧
     (encryptChar sampleEnigma 'A').1 ≤ 'Z') ∧
    (encryptChar sampleEnigma 'A').1 ≠ 'A' :=
  encryptChar_no_fixed_point sampleEnigma sampleEnigma_reachable 'A'
    (by decide) (by decide)

/-- C3 counterexample: on the freshly constructed default machine
(empty plugboard), `AddPlugboardConnection e 'A' 'A'` does NOT fail: it
returns no error, and afterwards the plugboard maps 'A' to itself.  Both
map-existence checks run before either insert, so a self-pair on a
previously unconnected letter slips through. -/
theorem addPlug_self_succeeds_cex :
    (AddPlugboardConnection sampleEnigma 'A' 'A').1 = none ∧
    (AddPlugboardConnection sampleEnigma 'A' 'A').2.plugboard.lookup 'A'
      = some 'A' := by
  decide

/-- C3 amended: `addPlugConnection(a, a)` fails with `AlreadyConnected`
exactly when `a` already has a partner; when `a` is unconnected the call
succeeds and installs the self-pair mapping `a` to itself. -/
theorem addPlug_self_spec (e : Enigma) (a : Char)
    (h1 : 'A' ≤ a) (h2 : a ≤ 'Z') :
    (∀ p, e.plugboard.lookup a = some p →
      AddPlugboardConnection e a a
        = (some (EnigmaErr.alreadyConnected a), e)) ∧
    (e.plugboard.lookup a = none →
      (AddPlugboardConnection e a a).1 = none ∧
      (AddPlugboardConnection e a a).2.plugboard.lookup a = some a) := by
  have hu : toUpperAscii a = a := toUpperAscii_of_upper h1 h2
  have hcond : ¬(a < 'A' ∨ a > 'Z' ∨ a < 'A' ∨ a > 'Z') := by
    push_neg
    exact ⟨h1, h2, h1, h2⟩
  constructor
  · intro p hp
    simp only [AddPlugboardConnection, hu]
    rw [if_neg hcond, if_pos (by rw [hp]; rfl)]
  · intro hnone
    have hmain : AddPlugboardConnection e a a
        = (none, { e with plugboard := plugInsert e.plugboard a a }) := by
      simp only [AddPlugboardConnection, hu]
      rw [if_neg hcond]
      rw [if_neg (by rw [hnone]; simp), if_neg (by rw [hnone]; simp)]
    rw [hmain]
    exact ⟨rfl, lookup_plugInsert_left e.plugboard a a⟩

theorem addPlug_self_spec_witness :
    (AddPlugboardConnection sampleEnigma 'Q' 'Q').1 = none ∧
    (AddPlugboardConnection sampleEnigma 'Q' 'Q').2.plugboard.lookup 'Q'
      = some 'Q' :=
  (addPlug_self_spec sampleEnigma 'Q' (by decide) (by decide)).2 (by decide)

/-- C5: adding a plugboard connection between two previously unconnected
uppercase letters succeeds and installs the symmetric pair in both
directions in one call; any subsequent call naming either of the two
now-connected letters fails with `AlreadyConnected`; and every failing
call (on any machine) leaves the machine, in particular its plugboard,
exactly unchanged. -/
theorem plugboard_add_spec (e : Enigma) (a b : Char)
    (ha1 : 'A' ≤ a) (ha2 : a ≤ 'Z') (hb1 : 'A' ≤ b) (hb2 : b ≤ 'Z')
    (hna : e.plugboard.lookup a = none) (hnb : e.plugboard.lookup b = none) :
    (AddPlugboardConnection e a b).1 = none ∧
    (AddPlugboardConnection e a b).2.plugboard.lookup a = some b ∧
    (AddPlugboardConnection e a b).2.plugboard.lookup b = some a ∧
    (∀ x y : Char, 'A' ≤ x → x ≤ 'Z' → 'A' ≤ y → y ≤ 'Z' →
      (x = a ∨ x = b ∨ y = a ∨ y = b) →
      ∃ l, (AddPlugboardConnection (AddPlugboardConnection e a b).2 x y).1
        = some (EnigmaErr.alreadyConnected l)) ∧
    (∀ (e2 : Enigma) (x y : Char) (err : EnigmaErr),
      (AddPlugboardConnection e2 x y).1 = some err →
      (AddPlugboardConnection e2 x y).2 = e2) := by
  have hua : toUpperAscii a = a := toUpperAscii_of_upper ha1 ha2
  have hub : toUpperAscii b = b := toUpperAscii_of_upper hb1 hb2
  have hcond : ¬(a < 'A' ∨ a > 'Z' ∨ b < 'A' ∨ b > 'Z') := by
    push_neg
    exact ⟨ha1, ha2, hb1, hb2⟩
  have hmain : AddPlugboardConnection e a b
      = (none, { e with plugboard := plugInsert e.plugboard a b }) := by
    simp only [AddPlugboardConnection, hua, hub]
    rw [if_neg hcond]
    rw [if_neg (by rw [hna]; simp), if_neg (by rw [hnb]; simp)]
  refine ⟨by rw [hmain], ?_, ?_, ?_, ?_⟩
  · rw [hmain]
    exact lookup_plugInsert_left e.plugboard a b
  · rw [hmain]
    exact lookup_plugInsert_right e.plugboard a b
  · intro x y hx1 hx2 hy1 hy2 hmem
    rw [hmain]
    have hux : toUpperAscii x = x := toUpperAscii_of_upper hx1 hx2
    have huy : toUpperAscii y = y := toUpperAscii_of_upper hy1 hy2
    have hcond2 : ¬(x < 'A' ∨ x > 'Z' ∨ y < 'A' ∨ y > 'Z') := by
      push_neg
      exact ⟨hx1, hx2, hy1, hy2⟩
    simp only [AddPlugboardConnection, hux, huy]
    rw [if_neg hcond2]
    by_cases hxs : (List.lookup x (plugInsert e.plugboard a b)).isSome
    · rw [if_pos hxs]
      exact ⟨x, rfl⟩
    · have hxa : x ≠ a := by
        intro hxx
        apply hxs
        rw [hxx, lookup_plugInsert_left e.plugboard a b]
        rfl
      have hxb : x ≠ b := by
        intro hxx
        apply hxs
        rw [hxx, lookup_plugInsert_right e.plugboard a b]
        rfl
      have hy : y = a ∨ y = b := by
        rcases hmem with h | h | h | h
        · exact absurd h hxa
        · exact absurd h hxb
        · exact Or.inl h
        · exact Or.inr h
      have hys : (List.lookup y (plugInsert e.plugboard a b)).isSome := by
        rcases hy with h | h
        · rw [h, lookup_plugInsert_left e.plugboard a b]
          rfl
        · rw [h, lookup_plugInsert_right e.plugboard a b]
          rfl
      rw [if_neg hxs, if_pos hys]
      exact ⟨y, rfl⟩
  · intro e2 x y err herr
    simp only [AddPlugboardConnection] at herr ⊢
    split_ifs at herr ⊢ <;> first | rfl | exact Option.noConfusion herr

theorem plugboard_add_spec_witness :
    (AddPlugboardConnection sampleEnigma 'A' 'B').1 = none ∧
    (AddPlugboardConnection sampleEnigma 'A' 'B').2.plugboard.lookup 'A'
      = some 'B' ∧
    (AddPlugboardConnection sampleEnigma 'A' 'B').2.plugboard.lookup 'B'
      = some 'A' := by
  have h := plugboard_add_spec sampleEnigma 'A' 'B' (by decide) (by decide)
    (by decide) (by decide) (by decide) (by decide)
  exact ⟨h.1, h.2.1, h.2.2.1⟩

/-- C6: `SetRotorPositions` and `SetRingSettings` succeed exactly when
all three arguments lie in the closed range [1, 26], in which case each
rotor stores the argument value minus one; any argument outside [1, 26]
makes the call fail with the out-of-range error and leaves every rotor
position (respectively ring setting) unmodified, all-or-nothing. -/
theorem set_positions_rings_spec (e : Enigma) (p1 p2 p3 r1 r2 r3 : Int) :
    ((1 ≤ p1 ∧ p1 ≤ 26 ∧ 1 ≤ p2 ∧ p2 ≤ 26 ∧ 1 ≤ p3 ∧ p3 ≤ 26) →
      SetRotorPositions e p1 p2 p3 =
        (none, { e with
          rotor0 := { e.rotor0 with position := (p1 - 1).toNat },
          rotor1 := { e.rotor1 with position := (p2 - 1).toNat },
          rotor2 := { e.rotor2 with position := (p3 - 1).toNat } })) ∧
    (¬(1 ≤ p1 ∧ p1 ≤ 26 ∧ 1 ≤ p2 ∧ p2 ≤ 26 ∧ 1 ≤ p3 ∧ p3 ≤ 26) →
      SetRotorPositions e p1 p2 p3 = (some .positionsOutOfRange, e)) ∧
    ((1 ≤ r1 ∧ r1 ≤ 26 ∧ 1 ≤ r2 ∧ r2 ≤ 26 ∧ 1 ≤ r3 ∧ r3 ≤ 26) →
      SetRingSettings e r1 r2 r3 =
        (none, { e with
          rotor0 := { e.rotor0 with ringSetting := (r1 - 1).toNat },
          rotor1 := { e.rotor1 with ringSetting := (r2 - 1).toNat },
          rotor2 := { e.rotor2 with ringSetting := (r3 - 1).toNat } })) ∧
    (¬(1 ≤ r1 ∧ r1 ≤ 26 ∧ 1 ≤ r2 ∧ r2 ≤ 26 ∧ 1 ≤ r3 ∧ r3 ≤ 26) →
      SetRingSettings e r1 r2 r3 = (some .ringsOutOfRange, e)) := by
  refine ⟨?_, ?_, ?_, ?_⟩
  · intro hin
    unfold SetRotorPositions
    rw [if_neg (by omega)]
  · intro hout
    unfold SetRotorPositions
    rw [if_pos (by omega)]
  · intro hin
    unfold SetRingSettings
    rw [if_neg (by omega)]
  · intro hout
    unfold SetRingSettings
    rw [if_pos (by omega)]

theorem set_positions_rings_spec_witness :
    SetRotorPositions sampleEnigma 0 1 1 = (some .positionsOutOfRange, sampleEnigma) ∧
    SetRotorPositions sampleEnigma 27 1 1 = (some .positionsOutOfRange, sampleEnigma) ∧
    (SetRotorPositions sampleEnigma 1 1 1).1 = none := by
  refine ⟨?_, ?_, ?_⟩
  · exact (set_positions_rings_spec sampleEnigma 0 1 1 1 1 1).2.1 (by omega)
  · exact (set_positions_rings_spec sampleEnigma 27 1 1 1 1 1).2.1 (by omega)
  · rw [(set_positions_rings_spec sampleEnigma 1 1 1 1 1 1).1 (by omega)]
